import Mathlib

/-!
Verification of the git-rag-chat indexing and retrieval pipeline.

Shallow embedding of the core pipeline of `services/rag-pipeline/src`:
the chunker split-point search (`core/chunker.py`), the vector-store id
scheme (`core/vector_store.py`), the indexers (`indexing/indexer.py`,
`indexing/optimized_indexer.py`), the retriever (`retrieval/retriever.py`),
the reranker (`retrieval/reranker.py`) and the context assembler
(`retrieval/context.py`).

Modelling conventions:
- Python floats are modelled as `ℚ` (all arithmetic in scope is exact).
- Python strings are Lean `String`s; Python `str.strip`, `str.lstrip`,
  `str.startswith` and `str.lower` are re-implemented over `String.toList`
  (`py_strip`, `py_lstrip`, `py_starts_with`, `py_lower`) because the
  semantics is character-list based.
- Python `sorted(key=..., reverse=True)` is a stable descending sort; it is
  modelled by the stable insertion sort `py_sort_desc_by`.
- External collaborators (file system, sha256, git, parser, ChromaDB
  similarity search) are parameters, matching the component boundaries of
  the source; the control flow around them is embedded faithfully.
- `while` loops whose progress is data-dependent carry explicit fuel; a
  result of `none` means the loop did not finish within the given fuel.
-/

namespace GitRagChat

/-! ## Python string helpers -/

/-- Python `str.lstrip()` (strip leading whitespace). -/
def py_lstrip (s : String) : String := ⟨s.toList.dropWhile Char.isWhitespace⟩

/-- Python `str.strip()` (strip leading and trailing whitespace). -/
def py_strip (s : String) : String :=
  ⟨((s.toList.dropWhile Char.isWhitespace).reverse.dropWhile Char.isWhitespace).reverse⟩

/-- Python `s.startswith(p)`. -/
def py_starts_with (s p : String) : Bool := p.toList.isPrefixOf s.toList

/-- Python `str.lower()`. -/
def py_lower (s : String) : String := ⟨s.toList.map Char.toLower⟩

/-! ## Chunker: split-point search (`core/chunker.py`) -/

/-- Number of leading whitespace characters of a line:
`len(line) - len(line.lstrip())` (`chunker.py` lines 180-181). -/
def indent_len (line : String) : Nat := line.length - (py_lstrip line).length

/-- `CodeChunker._score_split_point` (`chunker.py` lines 155-190).
Scores a candidate split line: blank 10, comment opener 8, dedent before the
next line 7, lone closing bracket or `return` 6, otherwise 1; out-of-range
index 0. -/
def score_split_point (lines : List String) (idx : Nat) : Nat :=
  if idx < lines.length then
    let raw := lines.getD idx ""
    let line := py_strip raw
    if line = "" then 10
    else if py_starts_with line "#" || py_starts_with line "//" ||
        py_starts_with line "/*" then 8
    else if idx + 1 < lines.length ∧
        indent_len (lines.getD (idx + 1) "") < indent_len raw then 7
    else if line = "\x7d" ∨ line = ")" ∨ line = "]" ∨
        py_starts_with line "return" = true ∨ py_starts_with line "\x7d" = true then 6
    else 1
  else 0

/-- The inner `for i in range(search_start, search_end)` loop of
`_find_split_points` (`chunker.py` lines 144-148): keep the first index whose
score strictly beats the best so far (initial best score 0). -/
def best_split_loop (lines : List String) : List Nat → Nat → Nat → Nat × Nat
  | [], best, bestScore => (best, bestScore)
  | i :: rest, best, bestScore =>
    let s := score_split_point lines i
    if bestScore < s then best_split_loop lines rest i s
    else best_split_loop lines rest best bestScore

/-- One iteration body of `_find_split_points` (`chunker.py` lines 133-150):
the window is ±10 lines around the target position, the initial candidate is
`target_pos` with score 0. -/
def best_split (lines : List String) (target cur : Nat) : Nat :=
  let target_pos := min (cur + target) lines.length
  let search_start := max (cur + target - 10) cur
  let search_end := min (target_pos + 10) lines.length
  (best_split_loop lines (List.range' search_start (search_end - search_start)) target_pos 0).1

/-- The `while current_pos < len(lines)` loop of
`CodeChunker._find_split_points` (`chunker.py` lines 130-153), with explicit
fuel: `none` means the loop did not terminate within `fuel` iterations. -/
def find_split_points_go (lines : List String) (target : Nat) :
    Nat → Nat → List Nat → Option (List Nat)
  | 0, _, _ => none
  | fuel + 1, current_pos, acc =>
    if current_pos < lines.length then
      find_split_points_go lines target fuel (best_split lines target current_pos)
        (acc ++ [best_split lines target current_pos])
    else some acc

/-- `CodeChunker._find_split_points(lines, target_chunk_size)`
(`chunker.py` lines 120-153), starting from `current_pos = 0` with an empty
accumulator. -/
def find_split_points (lines : List String) (target : Nat) (fuel : Nat) : Option (List Nat) :=
  find_split_points_go lines target fuel 0 []

/-- Concatenation of the non-overlap regions of consecutive parts produced by
`_split_with_overlap` (`chunker.py` lines 92-116): part `i` contributes the
lines from the previous split point (`prev_end`) up to its own split point. -/
def slices_join {α : Type} (l : List α) : Nat → List Nat → List α
  | _, [] => []
  | prev, c :: cs => (l.drop prev).take (c - prev) ++ slices_join l c cs

/-! ## Vector store: chunk id scheme (`core/vector_store.py`) -/

/-- Input chunk as seen by `VectorStore.add_chunks`: the fields used by the id
scheme (`chunk.get('name', 'unknown')`) and the document (`chunk['code']`).
In the model `name` is always present, matching chunks produced by the parser
and chunker. -/
structure VChunk where
  name : String
  code : String
deriving DecidableEq

/-- Chunk id generation of `VectorStore.add_chunks` (`vector_store.py` line
130): `f"{collection_name}_{i + idx}_{chunk.get('name', 'unknown')}"`, where
`i` is the batch start offset and `idx` the position inside the batch — both
relative to the current `add_chunks` call. -/
def chunk_id (collection_name : String) (offset : Nat) (name : String) : String :=
  collection_name ++ "_" ++ toString offset ++ "_" ++ name

/-- Ids generated for one batch `chunks[i:i+batch_size]` of an `add_chunks`
call (`vector_store.py` lines 128-131). -/
def batch_ids (collection_name : String) (i : Nat) (batch : List VChunk) : List String :=
  batch.enum.map (fun p => chunk_id collection_name (i + p.1) p.2.name)

/-- The batching loop `for i in range(0, len(chunks), batch_size)` of
`VectorStore.add_chunks` (`vector_store.py` lines 119-131), restricted to the
ids it generates. `batch_size = 0` would make Python `range` raise
`ValueError`; the model returns `[]` in that unreachable case (the default is
100 and all call sites use positive sizes). -/
def add_chunks_ids_go (collection_name : String) (batch_size : Nat) :
    List VChunk → Nat → List String
  | remaining, i =>
    if remaining = [] ∨ batch_size = 0 then []
    else
      batch_ids collection_name i (remaining.take batch_size) ++
        add_chunks_ids_go collection_name batch_size (remaining.drop batch_size)
          (i + batch_size)
termination_by remaining _ => remaining.length
decreasing_by
  simp only [List.length_drop]
  rename_i h
  rw [not_or] at h
  have h1 : remaining.length ≠ 0 := fun hl => h.1 (List.eq_nil_of_length_eq_zero hl)
  omega

/-- Ids stored by one call `add_chunks(collection_name, chunks, batch_size)`
(`vector_store.py` lines 97-217): every call starts at offset `i = 0`. -/
def add_chunks_ids (collection_name : String) (chunks : List VChunk)
    (batch_size : Nat) : List String :=
  add_chunks_ids_go collection_name batch_size chunks 0

/-- First chunk of a file whose first unit is a function named `main`. -/
def chunkA : VChunk := ⟨"main", "def main(): pass"⟩

/-- First chunk of a second, different file whose first unit is also a
function named `main`. -/
def chunkB : VChunk := ⟨"main", "def main(): return 1"⟩

/-! ## Context assembler (`retrieval/context.py`) -/

/-- Chunk fields read by `ContextAssembler._format_chunk` (`context.py` lines
162-226). `similarity` is optional because `chunk.get('similarity')` may be
`None`. -/
structure CChunk where
  file_path : String
  code : String
  name : String
  chunk_type : String
  language : String
  start_line : Nat
  end_line : Nat
  similarity : Option ℚ
deriving DecidableEq

/-- Python round-half-to-even on a rational, used by `%`-formatting. -/
def round_half_even (q : ℚ) : ℤ :=
  let f := ⌊q⌋
  let r := q - f
  if r < 1 / 2 then f
  else if 1 / 2 < r then f + 1
  else if 2 ∣ f then f else f + 1

/-- Python `f"{x:.2%}"`: multiply by 100, render with two decimals
(half-to-even rounding) and append `%`. -/
def format_percent (q : ℚ) : String :=
  let scaled := round_half_even (q * 10000)
  let whole := scaled / 100
  let frac := (scaled % 100).natAbs
  toString whole ++ "." ++ (if frac < 10 then "0" else "") ++ toString frac ++ "%"

/-- `ContextAssembler._format_chunk(chunk, index, include_metadata,
include_file_paths)` (`context.py` lines 162-226): a header line (index,
optional file path, optional `type: name` and `(language)`), a fenced code
block, and an optional metadata line, joined with newlines. Python truthiness
of `name`, `language`, `start_line` and `end_line` is modelled by `≠ ""` and
`≠ 0`. -/
def format_chunk (c : CChunk) (index : Nat)
    (include_metadata include_file_paths : Bool) : String :=
  let header_parts :=
    ["[" ++ toString index ++ "]"] ++
      (if include_file_paths then [c.file_path] else []) ++
      (if include_metadata then
        (if c.name ≠ "" ∧ c.name ≠ "unknown" then [c.chunk_type ++ ": " ++ c.name] else []) ++
          (if c.language ≠ "" ∧ c.language ≠ "unknown" then ["(" ++ c.language ++ ")"] else [])
      else [])
  let header := String.intercalate " " header_parts
  let code_block := "```" ++ py_lower c.language ++ "\n" ++ c.code ++ "\n```"
  let meta_parts :=
    if include_metadata then
      let items :=
        (if c.start_line ≠ 0 ∧ c.end_line ≠ 0 then
          ["Lines " ++ toString c.start_line ++ "-" ++ toString c.end_line] else []) ++
          (match c.similarity with
            | some s => ["Relevance: " ++ format_percent s]
            | none => [])
      if items ≠ [] then ["(" ++ String.intercalate ", " items ++ ")"] else []
    else []
  String.intercalate "\n" ([header, code_block] ++ meta_parts)

/-- The `for idx, chunk in enumerate(chunks, 1)` loop of
`ContextAssembler.assemble_context` (`context.py` lines 56-71): format each
chunk, `break` as soon as the running character total would exceed
`max_chars`, otherwise append the block and add its length to the total. -/
def assemble_loop (max_chars : Nat) (include_metadata include_file_paths : Bool) :
    List (Nat × CChunk) → Nat → List String → List String
  | [], _, parts => parts
  | (idx, c) :: rest, total, parts =>
    let t := format_chunk c idx include_metadata include_file_paths
    if max_chars < total + t.length then parts
    else assemble_loop max_chars include_metadata include_file_paths rest
      (total + t.length) (parts ++ [t])

/-- The list `context_parts` built by `ContextAssembler.assemble_context`
(`context.py` lines 44-71): empty input short-circuits, `max_chunks` truncates
only when truthy (`None` and `0` keep everything), then the budget loop runs
with an initial total of 0. -/
def assemble_parts (chunks : List CChunk)
    (include_metadata include_file_paths : Bool) (max_chunks : Option Nat)
    (max_chars : Nat) : List String :=
  if chunks = [] then []
  else
    let limited :=
      match max_chunks with
      | some m => if m = 0 then chunks else chunks.take m
      | none => chunks
    assemble_loop max_chars include_metadata include_file_paths
      (List.enumFrom 1 limited) 0 []

/-- `ContextAssembler.assemble_context` (`context.py` lines 24-76), with the
budget `max_chars = max_tokens * 4` fixed in `__init__` (lines 13-21): the
collected blocks are joined with a two-character `"\n\n"` separator.
The `query` argument is unused by the source body and omitted here. -/
def assemble_context (max_tokens : Nat) (chunks : List CChunk)
    (include_metadata include_file_paths : Bool) (max_chunks : Option Nat) : String :=
  String.intercalate "\n\n"
    (assemble_parts chunks include_metadata include_file_paths max_chunks (max_tokens * 4))

/-- A minimal chunk whose formatted block is 14 characters long
(`"[i] " ++ "\n" ++ "```\nx\n```"`). -/
def tiny_chunk : CChunk := ⟨"", "x", "", "", "", 0, 0, none⟩

/-! ## Reranker (`retrieval/reranker.py`) -/

/-- Retrieved chunk as consumed by the reranker: the fields read by
`_mmr_rerank_by_similarity` (`code`, `similarity`), `diversity_rerank`
(`file_path`, `chunk_type`) and `reciprocal_rank_fusion` (`id`). Retrieved
chunks always carry an `id` (set by `CodeRetriever._format_results`), so the
Python fallback `chunk.get('id', chunk.get('code', '')[:50])` is the `id`
field here. -/
structure RChunk where
  id : String
  code : String
  file_path : String
  chunk_type : String
  similarity : ℚ
deriving DecidableEq

/-- Stable insertion of one element into a descending-by-key list: the new
element goes after every already-placed element with a key ≥ its own. -/
def insert_desc_by {α : Type} (key : α → ℚ) (x : α) : List α → List α
  | [] => [x]
  | y :: ys => if key x ≤ key y then y :: insert_desc_by key x ys else x :: y :: ys

/-- Python `sorted(l, key=key, reverse=True)`: a stable descending sort
(elements with equal keys keep their input order), modelled by stable
insertion sort. -/
def py_sort_desc_by {α : Type} (key : α → ℚ) (l : List α) : List α :=
  l.foldl (fun acc x => insert_desc_by key x acc) []

/-- `Reranker._text_similarity` (`reranker.py` lines 252-272):
character-level Jaccard similarity of the lowercased texts. -/
def text_similarity (t1 t2 : String) : ℚ :=
  let s1 := (py_lower t1).toList.toFinset
  let s2 := (py_lower t2).toList.toFinset
  let inter := (s1 ∩ s2).card
  let union := (s1 ∪ s2).card
  if union = 0 then 0 else (inter : ℚ) / union

/-- The `max(self._text_similarity(candidate['code'], sel['code']) for sel in
selected)` expression (`reranker.py` lines 134-140). Python `max` over an
empty sequence raises; the loop only evaluates it with `selected` non-empty,
and the model returns 0 for `[]`. -/
def max_sim_to_selected (c : RChunk) (selected : List RChunk) : ℚ :=
  match selected with
  | [] => 0
  | s :: rest =>
    rest.foldl (fun m t => max m (text_similarity c.code t.code))
      (text_similarity c.code s.code)

/-- MMR score of a candidate (`reranker.py` lines 143-146):
`lambda_param * relevance - (1 - lambda_param) * max_sim_to_selected`. -/
def mmr_score (lam : ℚ) (selected : List RChunk) (c : RChunk) : ℚ :=
  lam * c.similarity - (1 - lam) * max_sim_to_selected c selected

/-- The `for idx, candidate in enumerate(remaining)` scan of
`_mmr_rerank_by_similarity` (`reranker.py` lines 126-151): starting from
`max_mmr_score = -inf, max_idx = 0`, keep the first index whose score
strictly exceeds the best so far. For a non-empty list this is the index of
the first maximum, so the model seeds with the head score. -/
def argmax_first_aux : List ℚ → Nat → Nat → ℚ → Nat
  | [], _, best, _ => best
  | x :: xs, i, best, bv =>
    if bv < x then argmax_first_aux xs (i + 1) i x
    else argmax_first_aux xs (i + 1) best bv

/-- Index of the first maximal element (0 for the empty list). -/
def argmax_first : List ℚ → Nat
  | [] => 0
  | x :: xs => argmax_first_aux xs 1 0 x

/-- Fallback chunk for the (never reached) out-of-range index case of
`remaining.pop(max_idx)`. -/
def dummy_chunk : RChunk := ⟨"", "", "", "", 0⟩

/-- The `while len(selected) < k and remaining` loop of
`_mmr_rerank_by_similarity` (`reranker.py` lines 125-152). Each iteration
removes one candidate, so the loop runs at most `remaining.length` times;
`fuel` is instantiated with exactly that bound. -/
def mmr_loop (lam : ℚ) (k : Nat) : Nat → List RChunk → List RChunk → List RChunk
  | 0, selected, _ => selected
  | fuel + 1, selected, remaining =>
    if selected.length < k ∧ remaining ≠ [] then
      let scores := remaining.map (mmr_score lam selected)
      let max_idx := argmax_first scores
      mmr_loop lam k fuel (selected ++ [remaining.getD max_idx dummy_chunk])
        (remaining.eraseIdx max_idx)
    else selected

/-- `Reranker._mmr_rerank_by_similarity(chunks, lambda_param, top_k)`
(`reranker.py` lines 90-154): sort by similarity descending (stable), let
`k = top_k or len(chunks)` (Python `or` treats `None` and `0` as "all"),
select the most relevant chunk first, then iterate the MMR loop. -/
def mmr_rerank_by_similarity (chunks : List RChunk) (lam : ℚ)
    (top_k : Option Nat) : List RChunk :=
  if chunks = [] then []
  else
    let sorted := py_sort_desc_by (fun c => c.similarity) chunks
    let k := match top_k with
      | none => chunks.length
      | some n => if n = 0 then chunks.length else n
    match sorted with
    | [] => []
    | first :: rest => mmr_loop lam k rest.length [first] rest

/-- A retrieval result with the highest similarity. -/
def chunk_hi : RChunk := ⟨"a", "alpha", "f1.py", "function", 1⟩

/-- A retrieval result with a lower similarity. -/
def chunk_lo : RChunk := ⟨"b", "beta", "f2.py", "function", 0⟩

/-! ## Reciprocal rank fusion (`reranker.py` lines 347-403) -/

/-- The key used to dedupe chunks across ranked lists
(`chunk_id = chunk.get('id', chunk.get('code', '')[:50])`, `reranker.py` line
373). Retrieved chunks always carry an `id`, so the model reads the `id`
field. -/
def cid (c : RChunk) : String := c.id

/-- One bucket of the `rrf_scores` dict (`reranker.py` lines 369-382): the
key, the first chunk stored under that key, and the accumulated score. -/
structure RRFEntry where
  id : String
  chunk : RChunk
  score : ℚ
deriving DecidableEq

/-- Processing of one `(rank, chunk)` pair (`reranker.py` lines 372-382): a
new key is appended (Python dicts preserve insertion order), an existing key
accumulates `1.0 / (k + rank + 1)` onto its score and keeps its first-seen
chunk. -/
def rrf_step (k : Nat) (entries : List RRFEntry) (c : RChunk) (rank : Nat) :
    List RRFEntry :=
  let add : ℚ := 1 / ((k : ℚ) + rank + 1)
  if entries.any (fun e => e.id = cid c) then
    entries.map (fun e => if e.id = cid c then ⟨e.id, e.chunk, e.score + add⟩ else e)
  else entries ++ [⟨cid c, c, add⟩]

/-- The `for rank, chunk in enumerate(result_list)` loop (`reranker.py` lines
371-382), with an explicit rank counter. -/
def process_list (k : Nat) : List RRFEntry → List RChunk → Nat → List RRFEntry
  | entries, [], _ => entries
  | entries, c :: cs, rank => process_list k (rrf_step k entries c rank) cs (rank + 1)

/-- The fully populated `rrf_scores` dict (`reranker.py` lines 368-382), as an
insertion-ordered entry list. -/
def rrf_entries (lists : List (List RChunk)) (k : Nat) : List RRFEntry :=
  lists.foldl (fun entries l => process_list k entries l 0) []

/-- Accumulated RRF score of a key: the sum of the scores of the entries
carrying that key (by construction at most one). -/
def score_of (entries : List RRFEntry) (id : String) : ℚ :=
  ((entries.filter (fun e => e.id = id)).map (fun e => e.score)).sum

/-- Total contribution of one ranked list to a key, starting at rank `r`:
`1 / (k + rank + 1)` at the first position holding the key, 0 if the key is
absent. -/
def list_contribution_from (k : Nat) (id : String) : List RChunk → Nat → ℚ
  | [], _ => 0
  | c :: cs, r =>
    if cid c = id then 1 / ((k : ℚ) + r + 1) else list_contribution_from k id cs (r + 1)

/-- Contribution of one ranked list to a key: `1 / (k + rank + 1)` at the
key's rank in that list, 0 if absent. -/
def list_contribution (k : Nat) (id : String) (l : List RChunk) : ℚ :=
  list_contribution_from k id l 0

/-- `Reranker.reciprocal_rank_fusion(result_lists, k, top_k)` (`reranker.py`
lines 347-403): build the score dict, sort its values by score descending
(Python `sorted` is stable), extract the chunks, and truncate only when
`top_k` is truthy. -/
def reciprocal_rank_fusion (lists : List (List RChunk)) (k : Nat)
    (top_k : Option Nat) : List RChunk :=
  if lists = [] then []
  else
    let sorted := py_sort_desc_by (fun e => e.score) (rrf_entries lists k)
    let fused := sorted.map (fun e => e.chunk)
    match top_k with
    | none => fused
    | some n => if n = 0 then fused else fused.take n

/-! ## Indexer state model (`indexing/indexer.py`, `indexing/optimized_indexer.py`,
`db/metadata_db.py`, `core/vector_store.py`) -/

/-- A parsed chunk as produced by the parser/chunker pipeline
(`parser.parse_file` or `chunker.chunk_text`, then `chunker.chunk_code`). -/
structure ChunkRec where
  file_path : String
  name : String
  code : String
deriving DecidableEq

/-- A chunk record written to the vector store by `add_chunks`: the document
plus the metadata fields relevant here (`vector_store.py` lines 137-180). -/
structure StoredChunk where
  file_path : String
  code : String
  is_uncommitted : Bool
  commit_hash : String
deriving DecidableEq

/-- An `indexed_files` row of the metadata database (`metadata_db.py` lines
331-371), keyed by `file_path` (the repository id is fixed in this model). -/
structure FileRecord where
  file_path : String
  file_hash : String
  chunk_count : Nat
deriving DecidableEq

/-- The fields of a `repositories` row used by the indexers
(`metadata_db.py`). -/
structure RepoRecord where
  path : String
  indexing_status : String
  total_chunks : Nat
  total_files : Nat
deriving DecidableEq

/-- The observable state touched by an indexing run: the repository record
(`none` models an unknown repository id), the `indexed_files` rows, and the
repository's vector-store collection. -/
structure PipelineState where
  repo : Option RepoRecord
  files : List FileRecord
  collection : List StoredChunk
deriving DecidableEq

/-- The external collaborators of the indexers: file system (absolute path to
content, `none` for unreadable/binary files), content digest (sha256),
`CodeChunker.should_index_file`, and the parse-and-chunk pipeline
(`parser.parse_file` falling back to `chunker.chunk_text`, then
`chunker.chunk_code`), taking the path passed to the parser and the file
content. -/
structure Collab where
  fs : String → Option String
  hashFn : String → String
  should_index_file : String → Bool
  parse_chunks : String → String → List ChunkRec

/-- `RepositoryIndexer._compute_file_hash` / the optimized variant
(`indexer.py` lines 396-413): sha256 of the file bytes, `""` when the read
fails. -/
def compute_file_hash (col : Collab) (p : String) : String :=
  match col.fs p with
  | some content => col.hashFn content
  | none => ""

/-- `MetadataDB.get_file(repo_id, file_path)` (`metadata_db.py` lines
354-371): exact-match lookup on the `file_path` key. -/
def get_file (files : List FileRecord) (p : String) : Option FileRecord :=
  files.find? (fun r => r.file_path = p)

/-- `MetadataDB.upsert_file` (`metadata_db.py` lines 331-352): insert or
replace the row with the same `file_path` key. -/
def upsert_file (files : List FileRecord) (rec : FileRecord) : List FileRecord :=
  if files.any (fun r => r.file_path = rec.file_path) then
    files.map (fun r => if r.file_path = rec.file_path then rec else r)
  else files ++ [rec]

/-- `MetadataDB.update_repository(repo_id, indexing_status=s)`: a no-op when
the repository row does not exist (SQL `UPDATE` matches no row). -/
def update_status (st : PipelineState) (s : String) : PipelineState :=
  { st with repo := st.repo.map (fun r => { r with indexing_status := s }) }

/-- `Path(repo_path) / file_path` for a relative `file_path`. -/
def path_join (repo_path rel : String) : String := repo_path ++ "/" ++ rel

/-- Errors raised by an indexing run: `ValueError` for a non-git path or an
unknown repository id, and a propagated git-collaborator failure. -/
inductive IndexError
  | notGitRepo
  | repoNotFound
  | gitFailure
deriving DecidableEq

/-- The summary dictionary returned by an indexing run. -/
structure IndexSummary where
  indexed_files : Nat
  skipped_files : Nat
  failed_files : Nat
  total_chunks : Nat
  status : String
deriving DecidableEq

/-- The file-filter phase of `OptimizedRepositoryIndexer.index_repository`
(`optimized_indexer.py` lines 112-134): skip files rejected by
`should_index_file(file_path)` (relative path) and — unless forced — files
whose stored record under the RELATIVE path key has a `file_hash` equal to
the hash of the file at the ABSOLUTE path. Returns the
`(absolute, relative)` pairs to index and the skipped count. -/
def filter_files (col : Collab) (files : List FileRecord) (repo_path : String)
    (force : Bool) : List String → List (String × String) × Nat
  | [] => ([], 0)
  | rel :: rest =>
    let absolute := path_join repo_path rel
    let (l, sk) := filter_files col files repo_path force rest
    if col.should_index_file rel = false then (l, sk + 1)
    else
      match force, get_file files rel with
      | false, some fr =>
        if fr.file_hash = compute_file_hash col absolute then (l, sk + 1)
        else ((absolute, rel) :: l, sk)
      | _, _ => ((absolute, rel) :: l, sk)

/-- `OptimizedRepositoryIndexer._process_file` (`optimized_indexer.py` lines
225-279): read the file (binary/unreadable returns no chunks and no
metadata), parse and chunk, stamp `commit_hash` and `is_uncommitted = False`,
and build the file metadata row keyed by the ABSOLUTE path
(`str(file_path)`, line 273). -/
def process_file (col : Collab) (absolute : String) (commit : Option String) :
    List StoredChunk × Option FileRecord :=
  match col.fs absolute with
  | none => ([], none)
  | some content =>
    let chunks := col.parse_chunks absolute content
    let stored := chunks.map (fun c =>
      ({ file_path := c.file_path, code := c.code, is_uncommitted := false,
         commit_hash := commit.getD "" } : StoredChunk))
    (stored, some ⟨absolute, col.hashFn content, chunks.length⟩)

/-- The result-collection phase (`optimized_indexer.py` lines 155-172):
files yielding chunks contribute their chunks and metadata and are counted as
indexed (`as_completed` order is modelled as submission order; the counts and
upserts are order-insensitive). -/
def collect_results :
    List (List StoredChunk × Option FileRecord) →
      List StoredChunk × List FileRecord × Nat
  | [] => ([], [], 0)
  | (chunks, meta) :: rest =>
    let (ac, ms, n) := collect_results rest
    if chunks = [] then (ac, ms, n)
    else (chunks ++ ac, (match meta with | some m => m :: ms | none => ms), n + 1)

/-- `OptimizedRepositoryIndexer.index_repository(repo_id, repo_path,
force_reindex)` (`optimized_indexer.py` lines 62-223): set status
`in_progress`, then inside `try`: git check, repository lookup, tracked-file
listing (each failure sets status `failed` and re-raises), the hash-skip
filter, parallel per-file processing, vector-store writes, `upsert_file`
bookkeeping, and the final repository update with `total_chunks` and
`total_files` from THIS run and status `completed`. -/
def index_repository_opt (col : Collab) (is_git_repo : Bool)
    (tracked : Except IndexError (List String)) (latest_commit : Option String)
    (repo_path : String) (force : Bool) (st : PipelineState) :
    PipelineState × Except IndexError IndexSummary :=
  let st1 := update_status st "in_progress"
  if is_git_repo = false then (update_status st1 "failed", .error .notGitRepo)
  else
    match st1.repo with
    | none => (update_status st1 "failed", .error .repoNotFound)
    | some _ =>
      match tracked with
      | .error _ => (update_status st1 "failed", .error .gitFailure)
      | .ok tracked_files =>
        let fsk := filter_files col st1.files repo_path force tracked_files
        let processed := fsk.1.map (fun p => process_file col p.1 latest_commit)
        let cmn := collect_results processed
        let all_chunks := cmn.1
        let metas := cmn.2.1
        let indexed := cmn.2.2
        let files2 := metas.foldl upsert_file st1.files
        let st2 : PipelineState :=
          ⟨st1.repo, files2, st1.collection ++ all_chunks⟩
        let st3 : PipelineState :=
          ⟨st2.repo.map (fun r =>
            ⟨r.path, "completed", all_chunks.length, indexed⟩), st2.files, st2.collection⟩
        (st3, .ok ⟨indexed, fsk.2, 0, all_chunks.length, "completed"⟩)

/-- `RepositoryIndexer.delete_file_chunks` (`indexer.py` lines 282-321) /
`VectorStore.delete_chunks` with `where={'file_path': p}` (`vector_store.py`
lines 328-364): remove every chunk whose stored `file_path` metadata equals
`p`. -/
def delete_file_chunks (coll : List StoredChunk) (p : String) : List StoredChunk :=
  coll.filter (fun c => ¬ (c.file_path = p))

/-- `RepositoryIndexer._index_file` (`indexer.py` lines 220-280): read the
file (unreadable returns 0 chunks), parse and chunk; when chunks result,
write them to the collection with the given `is_uncommitted` flag and
`commit_hash` (`''` for `None`) and upsert the file record keyed by the
path. -/
def index_file_inner (col : Collab) (st : PipelineState) (absolute : String)
    (commit : Option String) (is_unc : Bool) : PipelineState × Nat :=
  match col.fs absolute with
  | none => (st, 0)
  | some content =>
    let chunks := col.parse_chunks absolute content
    if chunks = [] then (st, 0)
    else
      let stored := chunks.map (fun c =>
        ({ file_path := c.file_path, code := c.code, is_uncommitted := is_unc,
           commit_hash := commit.getD "" } : StoredChunk))
      let files2 := upsert_file st.files ⟨absolute, compute_file_hash col absolute, chunks.length⟩
      ({ st with collection := st.collection ++ stored, files := files2 }, chunks.length)

/-- The `for file_path_str in modified_files` loop of
`RepositoryIndexer.incremental_index` (`indexer.py` lines 356-380): for each
modified file that passes `should_index_file` (called on the ABSOLUTE path,
line 359), delete its stored chunks and re-index it fresh with
`is_uncommitted=True`; accumulate indexed-file and chunk counts. -/
def incremental_loop (col : Collab) (repo_path : String) :
    List String → PipelineState → Nat → Nat → PipelineState × Nat × Nat
  | [], st, nf, nc => (st, nf, nc)
  | rel :: rest, st, nf, nc =>
    let absolute := path_join repo_path rel
    if col.should_index_file absolute = false then
      incremental_loop col repo_path rest st nf nc
    else
      let st1 := { st with collection := delete_file_chunks st.collection absolute }
      let r := index_file_inner col st1 absolute none true
      incremental_loop col repo_path rest r.1 (nf + 1) (nc + r.2)

/-- `RepositoryIndexer.incremental_index(repo_id)` (`indexer.py` lines
323-394): an unknown repository id raises `ValueError` and a git failure
propagates — in both cases the `except` block (lines 392-394) only logs and
re-raises, leaving the state (and `indexing_status`) untouched; otherwise the
delete-then-insert loop runs over the modified files and a summary is
returned. The repository record is not updated by this method. -/
def incremental_index (col : Collab) (modified : Except IndexError (List String))
    (st : PipelineState) : PipelineState × Except IndexError IndexSummary :=
  match st.repo with
  | none => (st, .error .repoNotFound)
  | some r =>
    match modified with
    | .error _ => (st, .error .gitFailure)
    | .ok ms =>
      let res := incremental_loop col r.path ms st 0 0
      (res.1, .ok ⟨res.2.1, 0, 0, res.2.2, "completed"⟩)

/-- The chunks that re-indexing the file at `absolute` with
`is_uncommitted=True` stores for it: empty when the file is unreadable or
yields no chunks. -/
def expected_new (col : Collab) (absolute : String) : List StoredChunk :=
  match col.fs absolute with
  | none => []
  | some content =>
    (col.parse_chunks absolute content).map (fun c =>
      ({ file_path := c.file_path, code := c.code, is_uncommitted := true,
         commit_hash := "" } : StoredChunk))

/-- Collaborators for the C1 scenario: one file `/repo/a.py` with fixed
content, identity digest (injective like sha256 on these inputs), every file
indexable, one chunk per file. -/
def col_c1 : Collab :=
  { fs := fun p => if p = "/repo/a.py" then some "print(1)" else none,
    hashFn := fun c => c,
    should_index_file := fun _ => true,
    parse_chunks := fun p c => [⟨p, "main", c⟩] }

/-- Fresh repository state for the C1 scenario. -/
def st_c1 : PipelineState :=
  { repo := some ⟨"/repo", "pending", 0, 0⟩, files := [], collection := [] }

/-- State after the first full optimized indexing run of the C1 scenario. -/
def st_c1_after_first : PipelineState :=
  (index_repository_opt col_c1 true (.ok ["a.py"]) (some "c0") "/repo" false st_c1).1

/-- Second unchanged full optimized indexing run of the C1 scenario. -/
def run_c1_second : PipelineState × Except IndexError IndexSummary :=
  index_repository_opt col_c1 true (.ok ["a.py"]) (some "c0") "/repo" false st_c1_after_first

/-- Collaborators with no readable files, for error-path scenarios. -/
def col_trivial : Collab :=
  { fs := fun _ => none, hashFn := fun c => c,
    should_index_file := fun _ => true, parse_chunks := fun _ _ => [] }

/-- A repository state whose last run completed, for the C8 scenario. -/
def st_c8 : PipelineState :=
  { repo := some ⟨"/repo", "completed", 5, 2⟩, files := [], collection := [] }

/-! ## Retriever (`retrieval/retriever.py`, `core/vector_store.py`) -/

/-- One raw hit of a ChromaDB query (`{id, document, metadata, distance}`). -/
structure RawHit where
  id : String
  document : String
  file_path : String
  chunk_type : String
  distance : ℚ
deriving DecidableEq

/-- The error surfaced by `VectorStore.query` when
`client.get_collection(name)` raises because the collection does not exist
(`vector_store.py` lines 239-258: the `except` block logs and re-raises). -/
inductive QueryError
  | collectionNotFound
deriving DecidableEq

/-- The vector store's collections: name to stored chunks. -/
def get_collection (collections : List (String × List StoredChunk))
    (name : String) : Option (List StoredChunk) :=
  (collections.find? (fun p => p.1 = name)).map (fun p => p.2)

/-- `VectorStore.query(collection_name, query_text, n_results, ...)`
(`vector_store.py` lines 219-258): a missing collection raises (the except
re-raises); otherwise the similarity search — ChromaDB's ANN index, an
external collaborator passed as `chroma_search` — returns the ranked hits. -/
def vs_query (chroma_search : List StoredChunk → String → Nat → List RawHit)
    (collections : List (String × List StoredChunk)) (name query : String)
    (n : Nat) : Except QueryError (List RawHit) :=
  match get_collection collections name with
  | none => .error .collectionNotFound
  | some chunks => .ok (chroma_search chunks query n)

/-- `CodeRetriever._format_results` (`retriever.py` lines 247-300): convert
each hit's distance to `similarity = 1 / (1 + distance)`, drop hits strictly
below `min_similarity`, and build the chunk records. -/
def format_results (hits : List RawHit) (min_similarity : ℚ) : List RChunk :=
  hits.filterMap (fun h =>
    let sim := 1 / (1 + h.distance)
    if sim < min_similarity then none
    else some ⟨h.id, h.document, h.file_path, h.chunk_type, sim⟩)

/-- `CodeRetriever.retrieve(collection_name, query, n_results, filters,
min_similarity)` (`retriever.py` lines 32-71): query the vector store and
format the results; any exception is logged and RE-RAISED (lines 69-71), so a
missing collection propagates as an error. Metadata filters are passed
through to the search collaborator and omitted here. -/
def retrieve (chroma_search : List StoredChunk → String → Nat → List RawHit)
    (collections : List (String × List StoredChunk)) (name query : String)
    (n : Nat) (min_similarity : ℚ) : Except QueryError (List RChunk) :=
  match vs_query chroma_search collections name query n with
  | .error e => .error e
  | .ok hits => .ok (format_results hits min_similarity)

/-- A similarity-search collaborator that returns no hits. -/
def chroma_none : List StoredChunk → String → Nat → List RawHit := fun _ _ _ => []

/-- Collaborators for the C3 scenario: the modified file `/repo/b.py` now
yields one chunk. -/
def col_c3 : Collab :=
  { fs := fun p => if p = "/repo/b.py" then some "x" else none,
    hashFn := fun c => c,
    should_index_file := fun _ => true,
    parse_chunks := fun p c => [⟨p, "main", c⟩] }

/-- State before the C3 incremental run: two stale chunks for `/repo/b.py`
and one chunk of another file. -/
def st_c3 : PipelineState :=
  { repo := some ⟨"/repo", "completed", 3, 2⟩,
    files := [⟨"/repo/b.py", "oldhash", 2⟩],
    collection := [⟨"/repo/b.py", "old1", false, "c0"⟩,
                   ⟨"/repo/b.py", "old2", false, "c0"⟩,
                   ⟨"/repo/other.py", "keep", false, "c0"⟩] }

end GitRagChat

namespace GitRagChat

/-! ### Chunker lemmas -/

theorem best_split_loop_fst (lines : List String) :
    ∀ (idxs : List Nat) (best bs : Nat),
      (best_split_loop lines idxs best bs).1 = best ∨
        (best_split_loop lines idxs best bs).1 ∈ idxs := by
  intro idxs
  induction idxs with
  | nil => intro best bs; exact Or.inl rfl
  | cons i rest ih =>
    intro best bs
    simp only [best_split_loop]
    by_cases h : bs < score_split_point lines i
    · simp only [h, if_pos]
      rcases ih i (score_split_point lines i) with h2 | h2
      · exact Or.inr (by simp [h2])
      · exact Or.inr (List.mem_cons_of_mem _ h2)
    · simp only [h, if_neg, if_false]
      rcases ih best bs with h2 | h2
      · exact Or.inl h2
      · exact Or.inr (List.mem_cons_of_mem _ h2)

theorem best_split_ge (lines : List String) (target cur : Nat) (hcur : cur < lines.length) :
    cur ≤ best_split lines target cur := by
  simp only [best_split]
  rcases best_split_loop_fst lines
      (List.range' (max (cur + target - 10) cur)
        (min (min (cur + target) lines.length + 10) lines.length - max (cur + target - 10) cur))
      (min (cur + target) lines.length) 0 with h | h
  · rw [h]
    exact le_min (Nat.le_add_right _ _) (Nat.le_of_lt hcur)
  · rw [List.mem_range'_1] at h
    calc cur ≤ max (cur + target - 10) cur := le_max_right _ _
    _ ≤ _ := h.1

theorem best_split_le (lines : List String) (target cur : Nat) :
    best_split lines target cur ≤ lines.length := by
  simp only [best_split]
  rcases best_split_loop_fst lines
      (List.range' (max (cur + target - 10) cur)
        (min (min (cur + target) lines.length + 10) lines.length - max (cur + target - 10) cur))
      (min (cur + target) lines.length) 0 with h | h
  · rw [h]; exact min_le_right _ _
  · rw [List.mem_range'_1] at h
    obtain ⟨h1, h2⟩ := h
    have h3 : min (min (cur + target) lines.length + 10) lines.length ≤ lines.length :=
      min_le_right _ _
    omega

theorem find_split_points_go_stuck (lines : List String) (target cur : Nat)
    (hcur : cur < lines.length) (hb : best_split lines target cur = cur) :
    ∀ (fuel : Nat) (acc : List Nat), find_split_points_go lines target fuel cur acc = none := by
  intro fuel
  induction fuel with
  | zero => intro acc; rfl
  | succ n ih =>
    intro acc
    simp only [find_split_points_go, if_pos hcur, hb]
    exact ih (acc ++ [cur])

theorem find_split_points_go_spec (lines : List String) (target : Nat) :
    ∀ (fuel cur : Nat) (acc sps : List Nat),
      find_split_points_go lines target fuel cur acc = some sps →
      ∃ tail, sps = acc ++ tail ∧ List.Chain (· < ·) cur tail ∧
        (∀ x ∈ tail, x ≤ lines.length) ∧ lines.length ≤ tail.getLastD cur := by
  intro fuel
  induction fuel with
  | zero => intro cur acc sps h; simp [find_split_points_go] at h
  | succ n ih =>
    intro cur acc sps h
    by_cases hcur : cur < lines.length
    · simp only [find_split_points_go, if_pos hcur] at h
      by_cases hb : best_split lines target cur = cur
      · rw [hb] at h
        rw [find_split_points_go_stuck lines target cur hcur hb n (acc ++ [cur])] at h
        exact absurd h (by simp)
      · obtain ⟨tail2, ht2, hchain2, hle2, hlast2⟩ := ih _ _ _ h
        have hlt : cur < best_split lines target cur :=
          lt_of_le_of_ne (best_split_ge lines target cur hcur) (Ne.symm hb)
        refine ⟨best_split lines target cur :: tail2, ?_, ?_, ?_, ?_⟩
        · rw [ht2, List.append_assoc]; rfl
        · exact List.Chain.cons hlt hchain2
        · intro x hx
          rcases List.mem_cons.mp hx with hx | hx
          · rw [hx]; exact best_split_le lines target cur
          · exact hle2 x hx
        · rw [List.getLastD_cons]; exact hlast2
    · simp only [find_split_points_go, if_neg hcur] at h
      refine ⟨[], ?_, List.Chain.nil, by simp, ?_⟩
      · rw [List.append_nil]; exact (Option.some.inj h).symm
      · rw [List.getLastD_nil]; exact Nat.le_of_not_lt hcur

theorem slices_join_drop {α : Type} (l : List α) :
    ∀ (cs : List Nat) (prev : Nat), List.Chain (· ≤ ·) prev cs →
      (∀ x ∈ cs, x ≤ l.length) → cs.getLastD prev = l.length → prev ≤ l.length →
      slices_join l prev cs = l.drop prev := by
  intro cs
  induction cs with
  | nil =>
    intro prev _ _ hlast _
    rw [List.getLastD_nil] at hlast
    simp [slices_join, hlast, List.drop_length]
  | cons c cs ih =>
    intro prev hchain hle hlast hprev
    have hpc : prev ≤ c := (List.chain_cons.mp hchain).1
    have hcl : c ≤ l.length := hle c (List.mem_cons_self c cs)
    have ihc : slices_join l c cs = l.drop c := by
      refine ih c (List.chain_cons.mp hchain).2 (fun x hx => hle x (List.mem_cons_of_mem _ hx)) ?_ hcl
      rw [List.getLastD_cons] at hlast
      exact hlast
    simp only [slices_join, ihc]
    have hdrop : (l.drop prev).drop (c - prev) = l.drop c := by
      rw [List.drop_drop]
      congr 1
      omega
    calc (l.drop prev).take (c - prev) ++ l.drop c
        = (l.drop prev).take (c - prev) ++ (l.drop prev).drop (c - prev) := by rw [hdrop]
    _ = l.drop prev := List.take_append_drop _ _

/-- Claim C10: as stated, the claim is false on the code: `_find_split_points`
does not always produce a split list ending at the number of lines — it can
loop forever. On `lines = ["", "xxxxx"]` with `target_chunk_size = 1`
(reachable from `chunk_code` with `max_chunk_size = 1` on the unit
`"\n" ++ "xxxxx"`, whose 6 chars exceed `max_chars = 4` and whose average line
length ~3 gives `lines_per_chunk = 1`), the search window starts at
`current_pos = 0`, the blank line 0 scores 10 and is chosen as the best split,
so `current_pos` never advances: for every fuel the loop is still running. -/
theorem find_split_points_diverges :
    ∀ fuel : Nat, find_split_points ["", "xxxxx"] 1 fuel = none := by
  have h : ∀ (fuel : Nat) (acc : List Nat),
      find_split_points_go ["", "xxxxx"] 1 fuel 0 acc = none :=
    find_split_points_go_stuck ["", "xxxxx"] 1 0 (by decide) (by decide)
  intro fuel
  exact h fuel []

/-- Claim C5: whenever `_find_split_points` terminates (the fueled loop
returns a value) on a non-empty list of lines, the split points are strictly
increasing and end exactly at the number of lines, so the non-overlap regions
of consecutive parts (`lines[prev_end:split_point]`, as taken by
`_split_with_overlap`) concatenate to the unit's full line range exactly
once — no gaps and no line in two regions. -/
theorem chunk_split_coverage (lines : List String) (target fuel : Nat) (sps : List Nat)
    (h : find_split_points lines target fuel = some sps) (hne : lines ≠ []) :
    List.Chain (· < ·) 0 sps ∧ sps.getLastD 0 = lines.length ∧
      slices_join lines 0 sps = lines := by
  obtain ⟨tail, htail, hchain, hle, hlast⟩ :=
    find_split_points_go_spec lines target fuel 0 [] sps h
  rw [List.nil_append] at htail
  subst htail
  have hlen : 0 < lines.length := List.length_pos.mpr hne
  have hne2 : sps ≠ [] := by
    intro hnil
    rw [hnil, List.getLastD_nil] at hlast
    omega
  have hlastmem : sps.getLastD 0 ∈ sps := by
    cases sps with
    | nil => exact absurd rfl hne2
    | cons a l => rw [List.getLastD_cons]; exact List.getLastD_mem_cons _ _
  have hlasteq : sps.getLastD 0 = lines.length :=
    Nat.le_antisymm (hle _ hlastmem) (by
      cases sps with
      | nil => exact absurd rfl hne2
      | cons a l => rw [List.getLastD_cons]; rw [List.getLastD_cons] at hlast; exact hlast)
  refine ⟨hchain, hlasteq, ?_⟩
  have hcov := slices_join_drop lines sps 0
    (List.Chain.imp (fun a b hab => Nat.le_of_lt hab) hchain)
    hle hlasteq (Nat.zero_le _)
  rw [hcov, List.drop_zero]

/-- Witness for C5 at a terminating input: 30 one-character lines with target
chunk size 20 split at `[10, 20, 30]`. -/
theorem chunk_split_coverage_witness :
    List.Chain (· < ·) 0 [10, 20, 30] ∧
      ([10, 20, 30] : List Nat).getLastD 0 = (List.replicate 30 "x").length ∧
      slices_join (List.replicate 30 "x") 0 [10, 20, 30] = List.replicate 30 "x" :=
  chunk_split_coverage (List.replicate 30 "x") 20 40 [10, 20, 30] (by decide) (by decide)

/-! ### Vector store id scheme -/

/-- Claim C2: the claim is false on the code and the spec invariant is the
intent (a code bug). The id offset `i + idx` is relative to the current
`add_chunks` call, not to the collection, so two chunks stored by different
calls on the same collection collide whenever position and name coincide:
here two distinct chunks — the leading `main` functions of two different
files, indexed by the per-file `add_chunks` calls of
`RepositoryIndexer._index_file` — both receive the id `"repo_0_main"`. -/
theorem chunk_ids_collide_across_calls :
    add_chunks_ids "repo" [chunkA] 100 = ["repo_0_main"] ∧
      add_chunks_ids "repo" [chunkB] 100 = ["repo_0_main"] ∧ chunkA ≠ chunkB := by
  refine ⟨?_, ?_, by decide⟩ <;>
  · rw [add_chunks_ids, add_chunks_ids_go]
    simp only [batch_ids, chunk_id, chunkA, chunkB, List.drop, List.take, List.enum]
    rw [add_chunks_ids_go]
    simp only [List.drop_nil, reduceIte, List.append_nil]
    decide

/-! ### Context assembler lemmas -/

theorem assemble_loop_budget (max_chars : Nat) (im ifp : Bool) :
    ∀ (l : List (Nat × CChunk)) (total : Nat) (parts : List String),
      (parts.map String.length).sum = total → total ≤ max_chars →
      ((assemble_loop max_chars im ifp l total parts).map String.length).sum ≤ max_chars := by
  intro l
  induction l with
  | nil =>
    intro total parts hsum hle
    rw [assemble_loop, hsum]
    exact hle
  | cons p rest ih =>
    intro total parts hsum hle
    obtain ⟨idx, c⟩ := p
    rw [assemble_loop]
    by_cases hb : max_chars < total + (format_chunk c idx im ifp).length
    · rw [if_pos hb, hsum]
      exact hle
    · rw [if_neg hb]
      refine ih _ _ ?_ (Nat.le_of_not_lt hb)
      rw [List.map_append, List.sum_append, hsum]
      simp

theorem intercalate_go_length (s : String) :
    ∀ (l : List String) (acc : String),
      (String.intercalate.go acc s l).length =
        acc.length + (l.map (fun a => s.length + a.length)).sum := by
  intro l
  induction l with
  | nil => intro acc; rw [String.intercalate.go]; simp
  | cons a as ih =>
    intro acc
    rw [String.intercalate.go, ih]
    simp only [List.map_cons, List.sum_cons, String.length_append]
    ring

theorem intercalate_length (s : String) (l : List String) :
    (String.intercalate s l).length =
      (l.map String.length).sum + s.length * (l.length - 1) := by
  cases l with
  | nil => simp [String.intercalate]
  | cons a as =>
    rw [String.intercalate, intercalate_go_length]
    have h : ∀ bs : List String,
        (bs.map (fun b => s.length + b.length)).sum =
          s.length * bs.length + (bs.map String.length).sum := by
      intro bs
      induction bs with
      | nil => simp
      | cons b bs ih =>
        simp only [List.map_cons, List.sum_cons, List.length_cons, ih]
        ring
    rw [h]
    simp only [List.map_cons, List.sum_cons, List.length_cons, Nat.add_sub_cancel]
    ring

/-- Claim C9 (counterexample): the claim as stated is false. With
`max_tokens = 7` (budget 28 chars) and two chunks whose formatted blocks are
14 characters each, both blocks pass the running-total check (14 and then 28,
never exceeding 28), but the assembled context joins them with the
two-character separator `"\n\n"`, giving 30 > 28 characters. -/
theorem assemble_context_exceeds_budget :
    7 * 4 < (assemble_context 7 [tiny_chunk, tiny_chunk] true true none).length := by
  decide

/-- Claim C9 (amended): `assemble_context` includes formatted chunk blocks in
order and stops before the running total of block lengths would exceed
`max_tokens * 4`, so the sum of the included block lengths never exceeds that
budget; the returned string adds a two-character separator between
consecutive blocks, so its total length is bounded by the budget plus
`2 * (number of blocks - 1)` — it can exceed the budget itself by exactly
the separator characters. -/
theorem assemble_context_budget (max_tokens : Nat) (chunks : List CChunk)
    (im ifp : Bool) (mc : Option Nat) :
    ((assemble_parts chunks im ifp mc (max_tokens * 4)).map String.length).sum ≤
        max_tokens * 4 ∧
      (assemble_context max_tokens chunks im ifp mc).length ≤
        max_tokens * 4 +
          2 * ((assemble_parts chunks im ifp mc (max_tokens * 4)).length - 1) := by
  have h1 : ((assemble_parts chunks im ifp mc (max_tokens * 4)).map String.length).sum ≤
      max_tokens * 4 := by
    simp only [assemble_parts]
    by_cases hc : chunks = []
    · rw [if_pos hc]; simp
    · rw [if_neg hc]
      exact assemble_loop_budget _ im ifp _ 0 [] (by simp) (Nat.zero_le _)
  refine ⟨h1, ?_⟩
  rw [assemble_context, intercalate_length]
  have h2 : ("\n\n" : String).length = 2 := rfl
  rw [h2]
  exact Nat.add_le_add_right h1 _

/-! ### Stable descending sort lemmas -/

theorem insert_desc_by_perm {α : Type} (key : α → ℚ) (x : α) :
    ∀ l : List α, (insert_desc_by key x l).Perm (x :: l) := by
  intro l
  induction l with
  | nil => rfl
  | cons y ys ih =>
    rw [insert_desc_by]
    by_cases h : key x ≤ key y
    · rw [if_pos h]
      exact (ih.cons y).trans (List.Perm.swap x y ys)
    · rw [if_neg h]

theorem py_sort_desc_by_perm {α : Type} (key : α → ℚ) (l : List α) :
    (py_sort_desc_by key l).Perm l := by
  have h : ∀ (l acc : List α),
      (l.foldl (fun acc x => insert_desc_by key x acc) acc).Perm (acc ++ l) := by
    intro l
    induction l with
    | nil => intro acc; simp
    | cons x xs ih =>
      intro acc
      rw [List.foldl_cons]
      refine (ih (insert_desc_by key x acc)).trans ?_
      refine (List.Perm.append_right xs (insert_desc_by_perm key x acc)).trans ?_
      exact List.perm_middle.symm
  simpa using h l []

theorem insert_desc_by_pairwise {α : Type} (key : α → ℚ) (x : α) :
    ∀ l : List α, List.Pairwise (fun a b => key b ≤ key a) l →
      List.Pairwise (fun a b => key b ≤ key a) (insert_desc_by key x l) := by
  intro l
  induction l with
  | nil => intro _; simp [insert_desc_by]
  | cons y ys ih =>
    intro hp
    rw [List.pairwise_cons] at hp
    rw [insert_desc_by]
    by_cases h : key x ≤ key y
    · rw [if_pos h]
      rw [List.pairwise_cons]
      constructor
      · intro z hz
        rcases List.mem_cons.mp (((insert_desc_by_perm key x ys).mem_iff).mp hz) with hz2 | hz2
        · rw [hz2]; exact h
        · exact hp.1 z hz2
      · exact ih hp.2
    · rw [if_neg h]
      rw [List.pairwise_cons]
      constructor
      · intro z hz
        rcases List.mem_cons.mp hz with hz | hz
        · rw [hz]; exact le_of_lt (lt_of_not_le h)
        · exact le_trans (hp.1 z hz) (le_of_lt (lt_of_not_le h))
      · rw [List.pairwise_cons]
        exact ⟨hp.1, hp.2⟩

theorem py_sort_desc_by_pairwise {α : Type} (key : α → ℚ) (l : List α) :
    List.Pairwise (fun a b => key b ≤ key a) (py_sort_desc_by key l) := by
  have h : ∀ (l acc : List α), List.Pairwise (fun a b => key b ≤ key a) acc →
      List.Pairwise (fun a b => key b ≤ key a)
        (l.foldl (fun acc x => insert_desc_by key x acc) acc) := by
    intro l
    induction l with
    | nil => intro acc hacc; exact hacc
    | cons x xs ih =>
      intro acc hacc
      rw [List.foldl_cons]
      exact ih _ (insert_desc_by_pairwise key x acc hacc)
  exact h l [] List.Pairwise.nil

/-! ### MMR lemmas -/

theorem argmax_first_aux_lt :
    ∀ (xs : List ℚ) (i best : Nat) (bv : ℚ), best < i →
      argmax_first_aux xs i best bv < i + xs.length := by
  intro xs
  induction xs with
  | nil => intro i best bv h; simpa [argmax_first_aux] using h
  | cons x xs ih =>
    intro i best bv h
    rw [argmax_first_aux]
    by_cases hx : bv < x
    · rw [if_pos hx]
      have := ih (i + 1) i x (Nat.lt_succ_self i)
      simpa [Nat.add_assoc, Nat.add_comm, Nat.add_left_comm] using this
    · rw [if_neg hx]
      have := ih (i + 1) best bv (Nat.lt_succ_of_lt h)
      simpa [Nat.add_assoc, Nat.add_comm, Nat.add_left_comm] using this

theorem argmax_first_lt_length (l : List ℚ) (h : l ≠ []) :
    argmax_first l < l.length := by
  cases l with
  | nil => exact absurd rfl h
  | cons x xs =>
    rw [argmax_first]
    have := argmax_first_aux_lt xs 1 0 x Nat.zero_lt_one
    simpa [Nat.add_comm] using this

theorem argmax_first_aux_const :
    ∀ (xs : List ℚ) (i best : Nat) (bv : ℚ), (∀ y ∈ xs, y ≤ bv) →
      argmax_first_aux xs i best bv = best := by
  intro xs
  induction xs with
  | nil => intro i best bv _; rfl
  | cons x xs ih =>
    intro i best bv h
    rw [argmax_first_aux, if_neg (not_lt.mpr (h x (List.mem_cons_self x xs)))]
    exact ih (i + 1) best bv (fun y hy => h y (List.mem_cons_of_mem x hy))

theorem argmax_first_desc_head (x : ℚ) (xs : List ℚ) (h : ∀ y ∈ xs, y ≤ x) :
    argmax_first (x :: xs) = 0 := by
  rw [argmax_first]
  exact argmax_first_aux_const xs 1 0 x h

theorem mmr_score_lam_one (selected : List RChunk) (c : RChunk) :
    mmr_score 1 selected c = c.similarity := by
  rw [mmr_score]
  ring

theorem mmr_loop_length (lam : ℚ) (k : Nat) :
    ∀ (fuel : Nat) (sel rem : List RChunk), rem.length = fuel → sel.length ≤ k →
      (mmr_loop lam k fuel sel rem).length = min k (sel.length + rem.length) := by
  intro fuel
  induction fuel with
  | zero =>
    intro sel rem hrem hsel
    rw [List.length_eq_zero.mp hrem]
    rw [mmr_loop]
    simp [Nat.min_eq_right hsel]
  | succ n ih =>
    intro sel rem hrem hsel
    have hne : rem ≠ [] := by
      intro hnil; rw [hnil] at hrem; exact Nat.succ_ne_zero n hrem.symm
    rw [mmr_loop]
    by_cases hk : sel.length < k
    · rw [if_pos ⟨hk, hne⟩]
      have hidx : argmax_first (rem.map (mmr_score lam sel)) < rem.length := by
        have := argmax_first_lt_length (rem.map (mmr_score lam sel))
          (by simpa using hne)
        simpa using this
      have herase : (rem.eraseIdx (argmax_first (rem.map (mmr_score lam sel)))).length = n := by
        rw [List.length_eraseIdx, if_pos hidx, hrem]
        rfl
      rw [ih _ _ herase (by simpa using Nat.succ_le_of_lt hk)]
      simp only [List.length_append, List.length_cons, List.length_nil]
      omega
    · rw [if_neg (fun hc => hk hc.1)]
      have hke : sel.length = k := Nat.le_antisymm hsel (Nat.le_of_not_lt hk)
      rw [hke]
      have : k ≤ k + rem.length := Nat.le_add_right _ _
      omega

theorem mmr_loop_lam_one (k : Nat) :
    ∀ (fuel : Nat) (sel rem : List RChunk), rem.length = fuel →
      List.Pairwise (fun a b => b.similarity ≤ a.similarity) rem →
      mmr_loop 1 k fuel sel rem = sel ++ rem.take (k - sel.length) := by
  intro fuel
  induction fuel with
  | zero =>
    intro sel rem hrem _
    rw [List.length_eq_zero.mp hrem, mmr_loop]
    simp
  | succ n ih =>
    intro sel rem hrem hpair
    cases rem with
    | nil => exact absurd hrem (by simp)
    | cons r rs =>
      rw [mmr_loop]
      by_cases hk : sel.length < k
      · rw [if_pos ⟨hk, by simp⟩]
        have hscores : (r :: rs).map (mmr_score 1 sel) = r.similarity :: rs.map (·.similarity) := by
          simp only [List.map_cons, mmr_score_lam_one]
          congr 1
          exact List.map_congr_left (fun c _ => mmr_score_lam_one sel c)
        have hhead : ∀ y ∈ rs.map (·.similarity), y ≤ r.similarity := by
          intro y hy
          obtain ⟨c, hc, hcy⟩ := List.mem_map.mp hy
          rw [← hcy]
          exact (List.pairwise_cons.mp hpair).1 c hc
        have hargmax : argmax_first ((r :: rs).map (mmr_score 1 sel)) = 0 := by
          rw [hscores]
          exact argmax_first_desc_head _ _ hhead
        show mmr_loop 1 k n
            (sel ++ [(r :: rs).getD (argmax_first ((r :: rs).map (mmr_score 1 sel))) dummy_chunk])
            ((r :: rs).eraseIdx (argmax_first ((r :: rs).map (mmr_score 1 sel)))) =
          sel ++ List.take (k - sel.length) (r :: rs)
        rw [hargmax]
        simp only [List.getD_cons_zero, List.eraseIdx_cons_zero]
        rw [ih (sel ++ [r]) rs (by simpa using hrem) (List.pairwise_cons.mp hpair).2]
        have hsub : k - sel.length = (k - (sel ++ [r]).length) + 1 := by
          simp only [List.length_append, List.length_cons, List.length_nil]
          omega
        rw [hsub, List.take_succ_cons, List.append_assoc]
        rfl
      · rw [if_neg (fun hc => hk hc.1)]
        have : k - sel.length = 0 := Nat.sub_eq_zero_of_le (Nat.le_of_not_lt hk)
        rw [this]
        simp

/-- Claim C4 (counterexample): the claim quantifies over every `k`, but for
`top_k = 0` Python's `k = top_k or len(chunks)` treats 0 as falsy, so the
reranker returns all `len(chunks)` items instead of `min(0, len(chunks)) = 0`:
on a single chunk it returns 1 item, not 0. -/
theorem mmr_topk_zero_counterexample :
    (mmr_rerank_by_similarity [chunk_hi] (1 / 2) (some 0)).length ≠
      min 0 [chunk_hi].length := by
  decide

/-- Claim C4 (amended): for every requested `top_k = k ≥ 1` (the Python
`or` idiom maps `top_k` of `None` or `0` to `len(chunks)` instead),
`_mmr_rerank_by_similarity` returns exactly `min k (number of chunks)` items
for every lambda, and with `lambda = 1` the returned list is the input
stably sorted by similarity in descending order, truncated to `k`. -/
theorem mmr_bounds_amended (chunks : List RChunk) (lam : ℚ) (n : Nat) (hn : 1 ≤ n) :
    (mmr_rerank_by_similarity chunks lam (some n)).length = min n chunks.length ∧
      mmr_rerank_by_similarity chunks 1 (some n) =
        (py_sort_desc_by (fun c => c.similarity) chunks).take n := by
  have hn0 : ¬ n = 0 := by omega
  by_cases hc : chunks = []
  · subst hc
    constructor <;> simp [mmr_rerank_by_similarity, py_sort_desc_by]
  · have hperm := py_sort_desc_by_perm (fun c => c.similarity) chunks
    have hlen : (py_sort_desc_by (fun c => c.similarity) chunks).length = chunks.length :=
      hperm.length_eq
    have hpos : 0 < chunks.length := List.length_pos.mpr hc
    cases hs : py_sort_desc_by (fun c => c.similarity) chunks with
    | nil =>
      rw [hs] at hlen
      exact absurd hlen.symm (by simpa using Nat.pos_iff_ne_zero.mp hpos)
    | cons f r =>
      have hlen2 : r.length + 1 = chunks.length := by
        rw [hs] at hlen
        simpa using hlen
      have hpair := py_sort_desc_by_pairwise (fun c => c.similarity) chunks
      rw [hs] at hpair
      constructor
      · simp only [mmr_rerank_by_similarity, if_neg hc, hs, hn0, if_false]
        rw [mmr_loop_length lam n r.length [f] r rfl (by simpa using hn)]
        simp only [List.length_cons, List.length_nil]
        omega
      · simp only [mmr_rerank_by_similarity, if_neg hc, hs, hn0, if_false]
        rw [mmr_loop_lam_one n r.length [f] r rfl (List.pairwise_cons.mp hpair).2]
        have hsub : n = (n - [f].length) + 1 := by
          simp only [List.length_cons, List.length_nil]
          omega
        rw [hsub, List.take_succ_cons]
        rfl

/-- Witness for C4 (amended) at two chunks and `k = 1`. -/
theorem mmr_bounds_witness :
    (mmr_rerank_by_similarity [chunk_hi, chunk_lo] (1 / 2) (some 1)).length =
        min 1 [chunk_hi, chunk_lo].length ∧
      mmr_rerank_by_similarity [chunk_hi, chunk_lo] 1 (some 1) =
        (py_sort_desc_by (fun c => c.similarity) [chunk_hi, chunk_lo]).take 1 :=
  mmr_bounds_amended [chunk_hi, chunk_lo] (1 / 2) 1 (by norm_num)

/-! ### Reciprocal rank fusion lemmas -/

theorem score_of_cons (e : RRFEntry) (rest : List RRFEntry) (id : String) :
    score_of (e :: rest) id = (if e.id = id then e.score else 0) + score_of rest id := by
  by_cases h : e.id = id
  · simp [score_of, List.filter_cons, h]
  · simp [score_of, List.filter_cons, h]

theorem score_of_append (l1 l2 : List RRFEntry) (id : String) :
    score_of (l1 ++ l2) id = score_of l1 id + score_of l2 id := by
  simp [score_of, List.filter_append]

theorem score_of_not_mem (entries : List RRFEntry) (id : String)
    (h : id ∉ entries.map RRFEntry.id) : score_of entries id = 0 := by
  induction entries with
  | nil => rfl
  | cons e rest ih =>
    rw [score_of_cons]
    simp only [List.map_cons, List.mem_cons, not_or] at h
    rw [if_neg (fun he => h.1 he.symm), ih h.2]
    ring

theorem map_bump_id_of_no_match (x : String) (add : ℚ) (l : List RRFEntry)
    (h : ∀ e ∈ l, e.id ≠ x) :
    l.map (fun e => if e.id = x then (⟨e.id, e.chunk, e.score + add⟩ : RRFEntry) else e) = l := by
  induction l with
  | nil => rfl
  | cons e rest ih =>
    rw [List.map_cons, if_neg (h e (List.mem_cons_self e rest))]
    rw [ih (fun f hf => h f (List.mem_cons_of_mem e hf))]

theorem score_of_map_bump (x : String) (add : ℚ) (id : String) :
    ∀ entries : List RRFEntry, (entries.map RRFEntry.id).Nodup →
      entries.any (fun e => e.id = x) = true →
      score_of (entries.map
          (fun e => if e.id = x then (⟨e.id, e.chunk, e.score + add⟩ : RRFEntry) else e)) id =
        score_of entries id + (if x = id then add else 0) := by
  intro entries
  induction entries with
  | nil => intro _ hany; simp at hany
  | cons e rest ih =>
    intro hnd hany
    rw [List.map_cons] at hnd
    rw [List.nodup_cons] at hnd
    by_cases hex : e.id = x
    · have hrest : ∀ f ∈ rest, f.id ≠ x := by
        intro f hf hfx
        apply hnd.1
        rw [hex, ← hfx]
        exact List.mem_map_of_mem RRFEntry.id hf
      rw [List.map_cons, if_pos hex, map_bump_id_of_no_match x add rest hrest]
      rw [score_of_cons, score_of_cons]
      by_cases hxid : x = id
      · rw [if_pos (by rw [hex, hxid]), if_pos (by rw [hex, hxid]), if_pos hxid]
        ring
      · rw [if_neg (by rw [hex]; exact fun h => hxid h), if_neg (by rw [hex]; exact fun h => hxid h),
          if_neg hxid]
        ring
    · have hany2 : rest.any (fun e => e.id = x) = true := by
        rw [List.any_cons] at hany
        simpa [hex] using hany
      rw [List.map_cons, if_neg hex, score_of_cons, score_of_cons, ih hnd.2 hany2]
      ring

theorem score_of_rrf_step (k : Nat) (entries : List RRFEntry) (c : RChunk) (rank : Nat)
    (id : String) (hnd : (entries.map RRFEntry.id).Nodup) :
    score_of (rrf_step k entries c rank) id =
      score_of entries id + (if cid c = id then 1 / ((k : ℚ) + rank + 1) else 0) := by
  rw [rrf_step]
  by_cases hany : entries.any (fun e => e.id = cid c)
  · rw [if_pos hany]
    exact score_of_map_bump (cid c) _ id entries hnd hany
  · rw [if_neg hany, score_of_append, score_of_cons]
    have : score_of [] id = 0 := rfl
    rw [this]
    ring

theorem rrf_step_ids_nodup (k : Nat) (entries : List RRFEntry) (c : RChunk) (rank : Nat)
    (hnd : (entries.map RRFEntry.id).Nodup) :
    ((rrf_step k entries c rank).map RRFEntry.id).Nodup := by
  rw [rrf_step]
  by_cases hany : entries.any (fun e => e.id = cid c)
  · rw [if_pos hany]
    have : (entries.map
        (fun e => if e.id = cid c then (⟨e.id, e.chunk, e.score + 1 / ((k : ℚ) + rank + 1)⟩ : RRFEntry) else e)).map
        RRFEntry.id = entries.map RRFEntry.id := by
      rw [List.map_map]
      refine List.map_congr_left ?_
      intro e _
      by_cases he : e.id = cid c <;> simp [he]
    rw [this]
    exact hnd
  · rw [if_neg hany, List.map_append]
    have hx : cid c ∉ entries.map RRFEntry.id := by
      intro hmem
      obtain ⟨e, he, heid⟩ := List.mem_map.mp hmem
      rw [List.any_eq_true] at hany
      exact hany ⟨e, he, by simp [heid]⟩
    simp only [List.map_cons, List.map_nil]
    rw [List.nodup_append]
    refine ⟨hnd, List.nodup_singleton _, ?_⟩
    intro a ha hb
    rw [List.mem_singleton] at hb
    rw [hb] at ha
    exact hx ha

theorem rrf_step_coherent (k : Nat) (entries : List RRFEntry) (c : RChunk) (rank : Nat)
    (h : ∀ e ∈ entries, cid e.chunk = e.id) :
    ∀ e ∈ rrf_step k entries c rank, cid e.chunk = e.id := by
  rw [rrf_step]
  by_cases hany : entries.any (fun e => e.id = cid c)
  · rw [if_pos hany]
    intro e he
    obtain ⟨f, hf, hfe⟩ := List.mem_map.mp he
    by_cases hfc : f.id = cid c
    · rw [if_pos hfc] at hfe
      rw [← hfe]
      exact h f hf
    · rw [if_neg hfc] at hfe
      rw [← hfe]
      exact h f hf
  · rw [if_neg hany]
    intro e he
    rcases List.mem_append.mp he with he | he
    · exact h e he
    · rw [List.mem_singleton] at he
      rw [he]

theorem process_list_ids_nodup (k : Nat) :
    ∀ (l : List RChunk) (entries : List RRFEntry) (r : Nat),
      (entries.map RRFEntry.id).Nodup →
      ((process_list k entries l r).map RRFEntry.id).Nodup := by
  intro l
  induction l with
  | nil => intro entries r h; exact h
  | cons c cs ih =>
    intro entries r h
    rw [process_list]
    exact ih _ _ (rrf_step_ids_nodup k entries c r h)

theorem process_list_coherent (k : Nat) :
    ∀ (l : List RChunk) (entries : List RRFEntry) (r : Nat),
      (∀ e ∈ entries, cid e.chunk = e.id) →
      ∀ e ∈ process_list k entries l r, cid e.chunk = e.id := by
  intro l
  induction l with
  | nil => intro entries r h; exact h
  | cons c cs ih =>
    intro entries r h
    rw [process_list]
    exact ih _ _ (rrf_step_coherent k entries c r h)

theorem score_of_process_list_absent (k : Nat) (id : String) :
    ∀ (l : List RChunk) (entries : List RRFEntry) (r : Nat),
      (entries.map RRFEntry.id).Nodup → id ∉ l.map cid →
      score_of (process_list k entries l r) id = score_of entries id := by
  intro l
  induction l with
  | nil => intro entries r _ _; rfl
  | cons c cs ih =>
    intro entries r hnd habs
    simp only [List.map_cons, List.mem_cons, not_or] at habs
    rw [process_list, ih _ _ (rrf_step_ids_nodup k entries c r hnd) habs.2]
    rw [score_of_rrf_step k entries c r id hnd, if_neg (fun h => habs.1 h.symm)]
    ring

theorem score_of_process_list (k : Nat) (id : String) :
    ∀ (l : List RChunk) (entries : List RRFEntry) (r : Nat),
      (entries.map RRFEntry.id).Nodup → (l.map cid).Nodup →
      score_of (process_list k entries l r) id =
        score_of entries id + list_contribution_from k id l r := by
  intro l
  induction l with
  | nil => intro entries r _ _; rw [process_list]; rw [list_contribution_from]; ring
  | cons c cs ih =>
    intro entries r hnd hl
    rw [List.map_cons, List.nodup_cons] at hl
    rw [process_list, list_contribution_from]
    by_cases hc : cid c = id
    · rw [if_pos hc]
      rw [score_of_process_list_absent k id cs _ (r + 1)
        (rrf_step_ids_nodup k entries c r hnd) (by rw [← hc]; exact hl.1)]
      rw [score_of_rrf_step k entries c r id hnd, if_pos hc]
    · rw [if_neg hc]
      rw [ih _ _ (rrf_step_ids_nodup k entries c r hnd) hl.2]
      rw [score_of_rrf_step k entries c r id hnd, if_neg hc]
      ring

theorem rrf_entries_ids_nodup (lists : List (List RChunk)) (k : Nat) :
    ((rrf_entries lists k).map RRFEntry.id).Nodup := by
  rw [rrf_entries]
  have h : ∀ (ls : List (List RChunk)) (entries : List RRFEntry),
      (entries.map RRFEntry.id).Nodup →
      ((ls.foldl (fun entries l => process_list k entries l 0) entries).map RRFEntry.id).Nodup := by
    intro ls
    induction ls with
    | nil => intro entries h; exact h
    | cons l ls ih =>
      intro entries h
      rw [List.foldl_cons]
      exact ih _ (process_list_ids_nodup k l entries 0 h)
  exact h lists [] (by simp)

theorem rrf_entries_coherent (lists : List (List RChunk)) (k : Nat) :
    ∀ e ∈ rrf_entries lists k, cid e.chunk = e.id := by
  rw [rrf_entries]
  have h : ∀ (ls : List (List RChunk)) (entries : List RRFEntry),
      (∀ e ∈ entries, cid e.chunk = e.id) →
      ∀ e ∈ ls.foldl (fun entries l => process_list k entries l 0) entries,
        cid e.chunk = e.id := by
    intro ls
    induction ls with
    | nil => intro entries h; exact h
    | cons l ls ih =>
      intro entries h
      rw [List.foldl_cons]
      exact ih _ (process_list_coherent k l entries 0 h)
  exact h lists [] (by simp)

theorem score_of_rrf_entries (lists : List (List RChunk)) (k : Nat) (id : String)
    (hall : ∀ l ∈ lists, (l.map cid).Nodup) :
    score_of (rrf_entries lists k) id =
      (lists.map (fun l => list_contribution k id l)).sum := by
  rw [rrf_entries]
  have h : ∀ (ls : List (List RChunk)) (entries : List RRFEntry),
      (entries.map RRFEntry.id).Nodup → (∀ l ∈ ls, (l.map cid).Nodup) →
      score_of (ls.foldl (fun entries l => process_list k entries l 0) entries) id =
        score_of entries id + (ls.map (fun l => list_contribution k id l)).sum := by
    intro ls
    induction ls with
    | nil => intro entries _ _; simp
    | cons l ls ih =>
      intro entries hnd hls
      rw [List.foldl_cons]
      rw [ih _ (process_list_ids_nodup k l entries 0 hnd)
        (fun l2 hl2 => hls l2 (List.mem_cons_of_mem l hl2))]
      rw [score_of_process_list k id l entries 0 hnd (hls l (List.mem_cons_self l ls))]
      simp only [list_contribution, List.map_cons, List.sum_cons]
      ring
  have h2 := h lists [] (by simp) hall
  have h3 : score_of [] id = 0 := rfl
  rw [h2, h3]
  ring

theorem list_contribution_head (k : Nat) (l : List RChunk) (i0 : String)
    (h : l.head?.map cid = some i0) :
    list_contribution k i0 l = 1 / ((k : ℚ) + 1) := by
  cases l with
  | nil => simp at h
  | cons c cs =>
    have hc : cid c = i0 := by simpa using h
    rw [list_contribution, list_contribution_from, if_pos hc]
    norm_num

theorem list_contribution_from_bounds (k : Nat) (id : String) :
    ∀ (cs : List RChunk) (r : Nat),
      0 ≤ list_contribution_from k id cs r ∧
        list_contribution_from k id cs r ≤ 1 / ((k : ℚ) + r + 1) := by
  intro cs
  induction cs with
  | nil =>
    intro r
    rw [list_contribution_from]
    constructor
    · exact le_refl 0
    · positivity
  | cons c cs ih =>
    intro r
    rw [list_contribution_from]
    by_cases hc : cid c = id
    · rw [if_pos hc]
      constructor
      · positivity
      · exact le_refl _
    · rw [if_neg hc]
      obtain ⟨h0, h1⟩ := ih (r + 1)
      refine ⟨h0, le_trans h1 ?_⟩
      apply one_div_le_one_div_of_le
      · positivity
      · push_cast
        linarith

theorem list_contribution_nonhead (k : Nat) (l : List RChunk) (i0 id : String)
    (hh : l.head?.map cid = some i0) (hne : id ≠ i0) :
    0 ≤ list_contribution k id l ∧ list_contribution k id l ≤ 1 / ((k : ℚ) + 2) := by
  cases l with
  | nil => simp at hh
  | cons c cs =>
    have hc : cid c = i0 := by simpa using hh
    rw [list_contribution, list_contribution_from, if_neg (by rw [hc]; exact fun h2 => hne h2.symm)]
    obtain ⟨h0, h1⟩ := list_contribution_from_bounds k id cs 1
    refine ⟨h0, le_trans h1 ?_⟩
    apply one_div_le_one_div_of_le
    · positivity
    · push_cast
      linarith

theorem sum_map_const_q {α : Type} (l : List α) (c : ℚ) :
    (l.map (fun _ => c)).sum = l.length * c := by
  induction l with
  | nil => simp
  | cons x xs ih =>
    simp only [List.map_cons, List.sum_cons, List.length_cons, ih]
    push_cast
    ring

theorem score_of_rrf_entries_top (lists : List (List RChunk)) (k : Nat) (i0 : String)
    (hall : ∀ l ∈ lists, (l.map cid).Nodup)
    (hhead : ∀ l ∈ lists, l.head?.map cid = some i0) :
    score_of (rrf_entries lists k) i0 = (lists.length : ℚ) / ((k : ℚ) + 1) := by
  rw [score_of_rrf_entries lists k i0 hall]
  have h : lists.map (fun l => list_contribution k i0 l) =
      lists.map (fun _ => 1 / ((k : ℚ) + 1)) :=
    List.map_congr_left (fun l hl => list_contribution_head k l i0 (hhead l hl))
  rw [h, sum_map_const_q, mul_one_div]

theorem score_of_mem :
    ∀ (entries : List RRFEntry), (entries.map RRFEntry.id).Nodup →
      ∀ e ∈ entries, score_of entries e.id = e.score := by
  intro entries
  induction entries with
  | nil => intro _ e he; simp at he
  | cons f rest ih =>
    intro hnd e he
    rw [List.map_cons, List.nodup_cons] at hnd
    rw [score_of_cons]
    rcases List.mem_cons.mp he with he | he
    · rw [he, if_pos rfl]
      rw [score_of_not_mem rest f.id (by rw [← he]; exact he ▸ hnd.1)]
      ring
    · have hfe : f.id ≠ e.id := by
        intro hfeid
        exact hnd.1 (hfeid ▸ List.mem_map_of_mem RRFEntry.id he)
      rw [if_neg hfe, ih hnd.2 e he]
      ring

/-- Claim C6: for every non-empty family of ranked result lists whose ids are
unique within each list, each key's fused score is the sum over the lists of
`1 / (k + rank + 1)` at the key's rank in that list (`k = 60` by default), an
item ranked first in every input list receives the strictly maximal fused
score, and it appears first in the fused output for every `top_k`. -/
theorem rrf_top_ranked_first (lists : List (List RChunk)) (k : Nat) (top_k : Option Nat)
    (i0 : String) (hne : lists ≠ [])
    (hall : ∀ l ∈ lists, (l.map cid).Nodup)
    (hhead : ∀ l ∈ lists, l.head?.map cid = some i0) :
    (∀ id, score_of (rrf_entries lists k) id =
        (lists.map (fun l => list_contribution k id l)).sum) ∧
      score_of (rrf_entries lists k) i0 = (lists.length : ℚ) / ((k : ℚ) + 1) ∧
      (∀ e ∈ rrf_entries lists k, e.id ≠ i0 →
        e.score < score_of (rrf_entries lists k) i0) ∧
      (∃ c, (reciprocal_rank_fusion lists k top_k).head? = some c ∧ cid c = i0) := by
  have hnd := rrf_entries_ids_nodup lists k
  have hco := rrf_entries_coherent lists k
  have htop := score_of_rrf_entries_top lists k i0 hall hhead
  have hm1 : (1 : ℚ) ≤ (lists.length : ℚ) := by
    have := List.length_pos.mpr hne
    exact_mod_cast this
  have hmax : ∀ e ∈ rrf_entries lists k, e.id ≠ i0 →
      e.score < score_of (rrf_entries lists k) i0 := by
    intro e he hne2
    have hscore : e.score = score_of (rrf_entries lists k) e.id :=
      (score_of_mem _ hnd e he).symm
    rw [hscore, score_of_rrf_entries lists k e.id hall, htop]
    have hb : (lists.map (fun l => list_contribution k e.id l)).sum ≤
        (lists.length : ℚ) * (1 / ((k : ℚ) + 2)) := by
      calc (lists.map (fun l => list_contribution k e.id l)).sum
          ≤ (lists.map (fun _ => 1 / ((k : ℚ) + 2))).sum :=
            List.sum_le_sum (fun l hl =>
              (list_contribution_nonhead k l i0 e.id (hhead l hl) hne2).2)
      _ = (lists.length : ℚ) * (1 / ((k : ℚ) + 2)) := sum_map_const_q lists _
    have hstrict : (lists.length : ℚ) * (1 / ((k : ℚ) + 2)) <
        (lists.length : ℚ) * (1 / ((k : ℚ) + 1)) := by
      have hk1 : (0 : ℚ) < (k : ℚ) + 1 := by positivity
      have hlt : 1 / ((k : ℚ) + 2) < 1 / ((k : ℚ) + 1) :=
        one_div_lt_one_div_of_lt hk1 (by linarith)
      exact mul_lt_mul_of_pos_left hlt (by linarith)
    calc (lists.map (fun l => list_contribution k e.id l)).sum
        ≤ (lists.length : ℚ) * (1 / ((k : ℚ) + 2)) := hb
    _ < (lists.length : ℚ) * (1 / ((k : ℚ) + 1)) := hstrict
    _ = (lists.length : ℚ) / ((k : ℚ) + 1) := mul_one_div _ _
  refine ⟨fun id => score_of_rrf_entries lists k id hall, htop, hmax, ?_⟩
  have hpos : (0 : ℚ) < score_of (rrf_entries lists k) i0 := by
    rw [htop]
    have hk1 : (0 : ℚ) < (k : ℚ) + 1 := by positivity
    exact div_pos (by linarith) hk1
  have hmem : i0 ∈ (rrf_entries lists k).map RRFEntry.id := by
    by_contra habs
    rw [score_of_not_mem _ _ habs] at hpos
    exact lt_irrefl 0 hpos
  obtain ⟨e0, he0, he0id⟩ := List.mem_map.mp hmem
  have hperm := py_sort_desc_by_perm (fun e => e.score) (rrf_entries lists k)
  have hsort := py_sort_desc_by_pairwise (fun e => e.score) (rrf_entries lists k)
  cases hs : py_sort_desc_by (fun e => e.score) (rrf_entries lists k) with
  | nil =>
    rw [hs] at hperm
    have hnil : rrf_entries lists k = [] := hperm.symm.eq_nil
    rw [hnil] at he0
    exact absurd he0 (by simp)
  | cons hd tl =>
    have hhd : hd ∈ rrf_entries lists k := by
      rw [hs] at hperm
      exact hperm.mem_iff.mp (List.mem_cons_self hd tl)
    have hhid : hd.id = i0 := by
      by_contra hne3
      have h1 : hd.score < score_of (rrf_entries lists k) i0 := hmax hd hhd hne3
      have he0sc : score_of (rrf_entries lists k) i0 = e0.score := by
        rw [← he0id]
        exact score_of_mem _ hnd e0 he0
      have he0s : e0 ∈ hd :: tl := by
        rw [hs] at hperm
        exact hperm.mem_iff.mpr he0
      rcases List.mem_cons.mp he0s with he0h | he0t
      · rw [he0h] at he0id
        exact hne3 he0id
      · rw [hs] at hsort
        have h2 : e0.score ≤ hd.score := (List.pairwise_cons.mp hsort).1 e0 he0t
        rw [he0sc] at h1
        linarith
    refine ⟨hd.chunk, ?_, by rw [hco hd hhd, hhid]⟩
    simp only [reciprocal_rank_fusion, if_neg hne, hs]
    cases top_k with
    | none => simp
    | some n =>
      cases n with
      | zero => simp
      | succ m => simp [List.take_succ_cons]

/-! ### Incremental indexing lemmas -/

theorem filter_delete_self (coll : List StoredChunk) (p : String) :
    (delete_file_chunks coll p).filter (fun c => c.file_path = p) = [] := by
  rw [delete_file_chunks, List.filter_filter]
  rw [List.filter_eq_nil_iff]
  intro c _
  simp

theorem filter_delete_other (coll : List StoredChunk) (p a : String) (hne : a ≠ p) :
    (delete_file_chunks coll p).filter (fun c => c.file_path = a) =
      coll.filter (fun c => c.file_path = a) := by
  rw [delete_file_chunks, List.filter_filter]
  refine List.filter_congr ?_
  intro c _
  by_cases hc : c.file_path = a
  · simp only [hc]
    simp [fun h : a = p => hne h]
  · simp [hc]

theorem filter_stored_all (l : List StoredChunk) (a : String)
    (h : ∀ c ∈ l, c.file_path = a) :
    l.filter (fun c => c.file_path = a) = l := by
  rw [List.filter_eq_self]
  intro c hc
  simpa using h c hc

theorem filter_stored_none (l : List StoredChunk) (a : String)
    (h : ∀ c ∈ l, c.file_path ≠ a) :
    l.filter (fun c => c.file_path = a) = [] := by
  rw [List.filter_eq_nil_iff]
  intro c hc
  simpa using h c hc

theorem step_filter_self (col : Collab) (st : PipelineState) (absolute : String)
    (hparse : ∀ p c, ∀ ch ∈ col.parse_chunks p c, ch.file_path = p) :
    ((index_file_inner col
        { st with collection := delete_file_chunks st.collection absolute }
        absolute none true).1).collection.filter (fun c => c.file_path = absolute) =
      expected_new col absolute := by
  cases hfs : col.fs absolute with
  | none =>
    simp only [index_file_inner, expected_new, hfs]
    exact filter_delete_self st.collection absolute
  | some content =>
    by_cases hch : col.parse_chunks absolute content = []
    · simp only [index_file_inner, expected_new, hfs, hch, reduceIte, List.map_nil]
      exact filter_delete_self st.collection absolute
    · simp only [index_file_inner, expected_new, hfs, if_neg hch]
      simp only [List.filter_append]
      rw [filter_delete_self]
      rw [filter_stored_all _ absolute (by
        intro c hc
        obtain ⟨ch, hmem, hc2⟩ := List.mem_map.mp hc
        rw [← hc2]
        exact hparse absolute content ch hmem)]
      rw [List.nil_append]
      rfl

theorem step_filter_other (col : Collab) (st : PipelineState) (absolute a : String)
    (hne : a ≠ absolute)
    (hparse : ∀ p c, ∀ ch ∈ col.parse_chunks p c, ch.file_path = p) :
    ((index_file_inner col
        { st with collection := delete_file_chunks st.collection absolute }
        absolute none true).1).collection.filter (fun c => c.file_path = a) =
      st.collection.filter (fun c => c.file_path = a) := by
  cases hfs : col.fs absolute with
  | none =>
    simp only [index_file_inner, hfs]
    exact filter_delete_other st.collection absolute a hne
  | some content =>
    by_cases hch : col.parse_chunks absolute content = []
    · simp only [index_file_inner, hfs, hch, reduceIte]
      exact filter_delete_other st.collection absolute a hne
    · simp only [index_file_inner, hfs, if_neg hch]
      simp only [List.filter_append]
      have hstored : (List.map (fun c =>
          ({ file_path := c.file_path, code := c.code, is_uncommitted := true,
             commit_hash := (none : Option String).getD "" } : StoredChunk))
          (col.parse_chunks absolute content)).filter (fun c => c.file_path = a) = [] := by
        apply filter_stored_none
        intro c hc
        obtain ⟨ch, hmem, hc2⟩ := List.mem_map.mp hc
        rw [← hc2]
        show ch.file_path ≠ a
        rw [hparse absolute content ch hmem]
        exact fun h => hne h.symm
      rw [filter_delete_other st.collection absolute a hne, hstored, List.append_nil]

theorem incremental_loop_preserves (col : Collab) (rp : String) (a : String)
    (hparse : ∀ p c, ∀ ch ∈ col.parse_chunks p c, ch.file_path = p) :
    ∀ (ms : List String) (st : PipelineState) (nf nc : Nat),
      (∀ g ∈ ms, path_join rp g ≠ a) →
      ((incremental_loop col rp ms st nf nc).1).collection.filter
          (fun c => c.file_path = a) =
        st.collection.filter (fun c => c.file_path = a) := by
  intro ms
  induction ms with
  | nil => intro st nf nc _; rfl
  | cons g rest ih =>
    intro st nf nc hms
    rw [incremental_loop]
    by_cases hsi : col.should_index_file (path_join rp g) = false
    · rw [if_pos hsi]
      exact ih st nf nc (fun g2 hg2 => hms g2 (List.mem_cons_of_mem g hg2))
    · rw [if_neg hsi]
      rw [ih _ _ _ (fun g2 hg2 => hms g2 (List.mem_cons_of_mem g hg2))]
      exact step_filter_other col st (path_join rp g) a
        (Ne.symm (hms g (List.mem_cons_self g rest))) hparse

theorem incremental_loop_filter (col : Collab) (rp : String)
    (hparse : ∀ p c, ∀ ch ∈ col.parse_chunks p c, ch.file_path = p) :
    ∀ (ms : List String) (st : PipelineState) (nf nc : Nat) (f : String),
      f ∈ ms → (ms.map (path_join rp)).Nodup →
      col.should_index_file (path_join rp f) = true →
      ((incremental_loop col rp ms st nf nc).1).collection.filter
          (fun c => c.file_path = path_join rp f) =
        expected_new col (path_join rp f) := by
  intro ms
  induction ms with
  | nil => intro st nf nc f hf; exact absurd hf (by simp)
  | cons g rest ih =>
    intro st nf nc f hf hnd hsi
    rw [List.map_cons, List.nodup_cons] at hnd
    rcases List.mem_cons.mp hf with hf | hf
    · subst hf
      rw [incremental_loop, if_neg (by rw [hsi]; exact fun h => Bool.noConfusion h)]
      rw [incremental_loop_preserves col rp (path_join rp f) hparse rest _ _ _ (by
        intro g2 hg2 heq
        exact hnd.1 (heq ▸ List.mem_map_of_mem (path_join rp) hg2))]
      exact step_filter_self col st (path_join rp f) hparse
    · rw [incremental_loop]
      by_cases hsig : col.should_index_file (path_join rp g) = false
      · rw [if_pos hsig]
        exact ih st nf nc f hf hnd.2 hsi
      · rw [if_neg hsig]
        exact ih _ _ _ f hf hnd.2 hsi

/-- Claim C3: in an incremental run, each modified (and indexable) file is
handled delete-then-insert: all stored chunks whose `file_path` metadata
equals the file's (absolute) path are deleted, then the file is re-indexed
fresh with `is_uncommitted = true`, so afterwards the collection holds
exactly the newly produced chunks under that path and none of the previously
stored ones. Hypotheses: the repository record exists, the parser stamps each
chunk with the path it was given, and distinct modified entries resolve to
distinct absolute paths. -/
theorem incremental_delete_then_insert (col : Collab) (st : PipelineState)
    (r : RepoRecord) (ms : List String) (f : String)
    (hrepo : st.repo = some r)
    (hparse : ∀ p c, ∀ ch ∈ col.parse_chunks p c, ch.file_path = p)
    (hf : f ∈ ms) (hnd : (ms.map (path_join r.path)).Nodup)
    (hsi : col.should_index_file (path_join r.path f) = true) :
    ((incremental_index col (.ok ms) st).1).collection.filter
        (fun c => c.file_path = path_join r.path f) =
      expected_new col (path_join r.path f) := by
  simp only [incremental_index, hrepo]
  exact incremental_loop_filter col r.path hparse ms st 0 0 f hf hnd hsi

/-- Witness for C3: the modified file `/repo/b.py` previously stored 2 chunks;
after the incremental run the collection holds exactly its 1 new uncommitted
chunk under that path. -/
theorem incremental_delete_then_insert_witness :
    ((incremental_index col_c3 (.ok ["b.py"]) st_c3).1).collection.filter
        (fun c => c.file_path = path_join "/repo" "b.py") =
      expected_new col_c3 (path_join "/repo" "b.py") :=
  incremental_delete_then_insert col_c3 st_c3 ⟨"/repo", "completed", 3, 2⟩ ["b.py"] "b.py"
    (by decide)
    (by intro p c ch hch; simp only [col_c3, List.mem_singleton] at hch; rw [hch])
    (by decide) (by decide) (by decide)

/-! ### Indexer status and idempotence -/

/-- Claim C1: the claim is false on the code and the spec (hash-skip
idempotence) is clearly the intent — a code bug. The optimized indexer looks
the file record up under the RELATIVE path (`get_file(repo_id,
str(file_path))`, `optimized_indexer.py` line 126) but `_process_file` stores
it under the ABSOLUTE path (line 273), so the record of an unchanged file is
never found: the second, unchanged run re-indexes the file
(`indexedFiles = 1`, the claim demands 0). The stored record also carries the
absolute key, as the last two conjuncts show. -/
theorem unchanged_rerun_reindexes :
    run_c1_second.2 = .ok ⟨1, 0, 0, 1, "completed"⟩ ∧
      get_file st_c1_after_first.files "a.py" = none ∧
      st_c1_after_first.files = [⟨"/repo/a.py", "print(1)", 1⟩] :=
  ⟨rfl, by decide, by decide⟩

/-- Claim C8 (counterexample): an incremental run whose git collaborator
fails re-raises the error but leaves `indexing_status` untouched
(`indexer.py` lines 392-394 only log and re-raise): the repository stays
`completed`, not `failed`. -/
theorem incremental_failure_keeps_status :
    (incremental_index col_trivial (.error .gitFailure) st_c8).2 = .error .gitFailure ∧
      (incremental_index col_trivial (.error .gitFailure) st_c8).1.repo.map
        (fun r => r.indexing_status) = some "completed" :=
  ⟨rfl, rfl⟩

/-- Claim C8 (amended): a FULL indexing run marks the repository
`indexing_status = failed` before re-raising any unhandled exception (here:
invalid git repository, or a git-collaborator failure), and already-written
vector-store content is not rolled back; an INCREMENTAL run re-raises
without touching the state, so its status is not set to `failed`. -/
theorem run_failure_status (col : Collab) (tracked : Except IndexError (List String))
    (lc : Option String) (rp : String) (force : Bool) (st : PipelineState)
    (e : IndexError) (hrepo : st.repo.isSome) :
    ((index_repository_opt col false tracked lc rp force st).1.repo.map
        (fun r => r.indexing_status) = some "failed" ∧
      (index_repository_opt col false tracked lc rp force st).2 = .error .notGitRepo) ∧
      ((index_repository_opt col true (.error e) lc rp force st).1.repo.map
          (fun r => r.indexing_status) = some "failed" ∧
        (index_repository_opt col true (.error e) lc rp force st).2 = .error .gitFailure) ∧
      (∀ st2 : PipelineState,
        (incremental_index col (.error e) st2).1 = st2) := by
  obtain ⟨r, hr⟩ := Option.isSome_iff_exists.mp hrepo
  refine ⟨?_, ?_, ?_⟩
  · constructor <;> simp [index_repository_opt, update_status, hr]
  · constructor <;> simp [index_repository_opt, update_status, hr]
  · intro st2
    cases h2 : st2.repo <;> simp [incremental_index, h2]

/-- Witness for C8 (amended) at the completed-repository state. -/
theorem run_failure_status_witness :
    ((index_repository_opt col_trivial false (.ok []) none "/repo" false st_c8).1.repo.map
        (fun r => r.indexing_status) = some "failed" ∧
      (index_repository_opt col_trivial false (.ok []) none "/repo" false st_c8).2 =
        .error .notGitRepo) ∧
      ((index_repository_opt col_trivial true (.error .gitFailure) none "/repo" false
            st_c8).1.repo.map (fun r => r.indexing_status) = some "failed" ∧
        (index_repository_opt col_trivial true (.error .gitFailure) none "/repo" false
            st_c8).2 = .error .gitFailure) ∧
      (∀ st2 : PipelineState,
        (incremental_index col_trivial (.error .gitFailure) st2).1 = st2) :=
  run_failure_status col_trivial (.ok []) none "/repo" false st_c8 .gitFailure (by decide)

/-! ### Retriever -/

/-- Claim C7 (counterexample): the claim is false — for a structurally valid
query against a store with no collection for the repository, `retrieve` does
not return an empty list: `VectorStore.query` raises on the missing
collection and `CodeRetriever.retrieve` logs and RE-RAISES
(`retriever.py` lines 69-71), so the caller gets an error. -/
theorem retrieve_missing_collection_raises :
    retrieve chroma_none [] "repo" "query" 10 0 = .error .collectionNotFound ∧
      retrieve chroma_none [] "repo" "query" 10 0 ≠
        (.ok [] : Except QueryError (List RChunk)) :=
  ⟨rfl, fun h => Except.noConfusion h⟩

/-- Claim C7 (amended): for every query against a repository whose collection
does not exist yet, `retrieve` propagates the vector store's
missing-collection error instead of returning an empty list (an empty list is
returned only when the collection exists and the search yields no hits). -/
theorem retrieve_missing_collection (chroma_search : List StoredChunk → String → Nat → List RawHit)
    (collections : List (String × List StoredChunk)) (name query : String)
    (n : Nat) (min_similarity : ℚ)
    (h : get_collection collections name = none) :
    retrieve chroma_search collections name query n min_similarity =
      .error .collectionNotFound := by
  simp [retrieve, vs_query, h]

/-- Witness for C7 (amended) at an empty vector store. -/
theorem retrieve_missing_collection_witness :
    retrieve chroma_none [] "docs" "hello" 5 0 = .error .collectionNotFound :=
  retrieve_missing_collection chroma_none [] "docs" "hello" 5 0 (by decide)

/-- Witness for C6 at one ranked list headed by the chunk with id `"a"` and
the default `k = 60`. -/
theorem rrf_top_ranked_first_witness :
    (∀ id, score_of (rrf_entries [[chunk_hi, chunk_lo]] 60) id =
        ([[chunk_hi, chunk_lo]].map (fun l => list_contribution 60 id l)).sum) ∧
      score_of (rrf_entries [[chunk_hi, chunk_lo]] 60) "a" =
        (([[chunk_hi, chunk_lo]] : List (List RChunk)).length : ℚ) / ((60 : ℚ) + 1) ∧
      (∀ e ∈ rrf_entries [[chunk_hi, chunk_lo]] 60, e.id ≠ "a" →
        e.score < score_of (rrf_entries [[chunk_hi, chunk_lo]] 60) "a") ∧
      (∃ c, (reciprocal_rank_fusion [[chunk_hi, chunk_lo]] 60 none).head? = some c ∧
        cid c = "a") :=
  rrf_top_ranked_first [[chunk_hi, chunk_lo]] 60 none "a" (by decide) (by decide) (by decide)

end GitRagChat
